import Mathlib

/-!
Verification development for the walk-time reachability engine
(`src/walk_times/algorithms.py`, `src/walk_times/calculate.py`,
`src/walk_times/graph_utils.py`).

Edge weights ("time" attributes, minutes) are modelled as exact rationals.
Python dicts are modelled as association lists with first-match lookup and
replace-in-place/append-at-end update, which matches CPython's insertion
ordered dict semantics.  The `heapq` priority queue is modelled as a list
from which `pqPop` removes a lexicographically minimal `(distance, node)`
entry; a binary heap pops exactly such an entry, and since entries that are
fully equal are interchangeable, the resulting multiset of queue entries
agrees with the Python heap at every step.
-/

/-- Association-list lookup, first match wins (Python `dict[k]` / `k in dict`). -/
def afind {β : Type} (m : List (ℕ × β)) (k : ℕ) : Option β :=
  match m with
  | [] => none
  | p :: rest => if p.1 = k then some p.2 else afind rest k

/-- Association-list update (Python `dict[k] = v`): replace the first binding
in place, or append a new binding at the end. -/
def aset {β : Type} (m : List (ℕ × β)) (k : ℕ) (v : β) : List (ℕ × β) :=
  match m with
  | [] => [(k, v)]
  | p :: rest => if p.1 = k then (k, v) :: rest else p :: aset rest k v

/-- Distance map of the bounded search (Python `distances` dict). -/
abbrev DMap := List (ℕ × ℚ)

/-- Priority-queue entry order: `heapq` compares `(distance, node)` tuples
lexicographically. -/
def entLe (a b : ℚ × ℕ) : Bool :=
  decide (a.1 < b.1) || (decide (a.1 = b.1) && decide (a.2 ≤ b.2))

/-- Smallest entry among `e` and the entries of a list, by `entLe`. -/
def pqMinEntry (e : ℚ × ℕ) : List (ℚ × ℕ) → ℚ × ℕ
  | [] => e
  | f :: fs => pqMinEntry (if entLe e f then e else f) fs

/-- Pop a lexicographically minimal `(distance, node)` entry (Python
`heapq.heappop`), returning it together with the remaining entries. -/
def pqPop : List (ℚ × ℕ) → Option ((ℚ × ℕ) × List (ℚ × ℕ))
  | [] => none
  | e :: es => some (pqMinEntry e es, (e :: es).erase (pqMinEntry e es))

/-- The rustworkx `PyDiGraph` built by `nx_to_rustworkx`: `numNodes` nodes
indexed `0..numNodes-1` and a list of weighted directed edges in insertion
order.  Parallel edges are kept, exactly as `PyDiGraph.add_edge` keeps them. -/
structure RxGraph where
  numNodes : ℕ
  edges : List (ℕ × ℕ × ℚ)
deriving DecidableEq

/-- Every edge endpoint is a valid node index. -/
def RxGraph.WF (g : RxGraph) : Prop :=
  ∀ e ∈ g.edges, e.1 < g.numNodes ∧ e.2.1 < g.numNodes

/-- All edge weights are nonnegative (times are nonnegative minutes). -/
def RxGraph.Nonneg (g : RxGraph) : Prop :=
  ∀ e ∈ g.edges, 0 ≤ e.2.2

/-- rustworkx `graph.get_edge_data(u, v)`: when several parallel edges join
`u` to `v` only one of them is returned; petgraph's adjacency lists are
most-recent-first, so the weight of the most recently inserted parallel edge
is the one observed.  We model that as the last matching edge in insertion
order. -/
def getEdgeData (g : RxGraph) (u v : ℕ) : Option ℚ :=
  ((g.edges.filter (fun e => e.1 == u && e.2.1 == v)).getLast?).map (fun e => e.2.2)

/-- rustworkx `graph.successor_indices(u)`: one entry per outgoing edge
(parallel edges repeat their target), most recently inserted first. -/
def successorIndices (g : RxGraph) (u : ℕ) : List ℕ :=
  ((g.edges.filter (fun e => e.1 == u)).reverse).map (fun e => e.2.1)

/-- Python `neighbor not in distances or new_dist < distances[neighbor]`. -/
def improves (m : DMap) (v : ℕ) (nd : ℚ) : Bool :=
  match afind m v with
  | none => true
  | some old => decide (nd < old)

/-- One pass of the `for neighbor in graph.successor_indices(...)` loop of
`bounded_dijkstra`: relax each successor of the freshly settled node `u`
(settled at distance `d`), returning the updated distance map together with
the list of newly pushed queue entries, in push order. -/
def relaxStep (g : RxGraph) (maxD : ℚ) (d : ℚ) (u : ℕ) :
    List ℕ → DMap → DMap × List (ℚ × ℕ)
  | [], dist => (dist, [])
  | v :: vs, dist =>
    match getEdgeData g u v with
    | none => relaxStep g maxD d u vs dist
    | some w =>
      if d + w ≤ maxD then
        if improves dist v (d + w) then
          ((relaxStep g maxD d u vs (aset dist v (d + w))).1,
            (d + w, v) :: (relaxStep g maxD d u vs (aset dist v (d + w))).2)
        else relaxStep g maxD d u vs dist
      else relaxStep g maxD d u vs dist

/-- Node indices that occur as the source of some edge. -/
def srcFinset (g : RxGraph) : Finset ℕ :=
  (g.edges.map (fun e => e.1)).toFinset

/-- Termination measure of the main search loop: settling a node removes it
from the unsettled edge-source count, and each settle pushes at most one
entry per edge. -/
def loopMeasure (g : RxGraph) (pq : List (ℚ × ℕ)) (visited : Finset ℕ) : ℕ :=
  (srcFinset g \ visited).card * (g.edges.length + 1) + pq.length

/-- The `while pq:` loop of `bounded_dijkstra`: pop a minimal entry, skip it
if its node is already visited, stop the entire search if its distance
exceeds `maxD`, and otherwise settle the node and relax its successors. -/
def dijkstraLoop (g : RxGraph) (maxD : ℚ) (pq : List (ℚ × ℕ)) (visited : Finset ℕ)
    (dist : DMap) : DMap :=
  match hpop : pqPop pq with
  | none => dist
  | some e =>
    if hv : e.1.2 ∈ visited then
      dijkstraLoop g maxD e.2 visited dist
    else if maxD < e.1.1 then
      dist
    else
      dijkstraLoop g maxD
        (e.2 ++ (relaxStep g maxD e.1.1 e.1.2 (successorIndices g e.1.2) dist).2)
        (insert e.1.2 visited)
        (relaxStep g maxD e.1.1 e.1.2 (successorIndices g e.1.2) dist).1
termination_by loopMeasure g pq visited
decreasing_by
  · -- already-visited entries just shrink the queue
    have hmm : ∀ (a : ℚ × ℕ) (l : List (ℚ × ℕ)), pqMinEntry a l ∈ a :: l := by
      intro a l
      induction l generalizing a with
      | nil => simp [pqMinEntry]
      | cons b bs ih =>
        rw [pqMinEntry]
        by_cases hab : entLe a b
        · rw [if_pos hab]
          rcases List.mem_cons.mp (ih a) with h1 | h1
          · simp [h1]
          · simp [h1]
        · rw [if_neg hab]
          rcases List.mem_cons.mp (ih b) with h1 | h1
          · simp [h1]
          · simp [h1]
    cases pq with
    | nil => simp [pqPop] at hpop
    | cons a as =>
      simp only [pqPop, Option.some.injEq] at hpop
      have he2 : e.2 = (a :: as).erase (pqMinEntry a as) := by
        rw [← hpop]
      have hlen : e.2.length < (a :: as).length := by
        rw [he2, List.length_erase_of_mem (hmm a as)]
        simp
      simp only [loopMeasure]
      omega
  · -- settling a node strictly decreases the measure
    have hmm : ∀ (a : ℚ × ℕ) (l : List (ℚ × ℕ)), pqMinEntry a l ∈ a :: l := by
      intro a l
      induction l generalizing a with
      | nil => simp [pqMinEntry]
      | cons b bs ih =>
        rw [pqMinEntry]
        by_cases hab : entLe a b
        · rw [if_pos hab]
          rcases List.mem_cons.mp (ih a) with h1 | h1
          · simp [h1]
          · simp [h1]
        · rw [if_neg hab]
          rcases List.mem_cons.mp (ih b) with h1 | h1
          · simp [h1]
          · simp [h1]
    have hrel : ∀ (vs : List ℕ) (dm : DMap),
        (relaxStep g maxD e.1.1 e.1.2 vs dm).2.length ≤ vs.length := by
      intro vs
      induction vs with
      | nil => intro dm; simp [relaxStep]
      | cons v vs ih =>
        intro dm
        rw [relaxStep]
        cases getEdgeData g e.1.2 v with
        | none => exact Nat.le_succ_of_le (ih dm)
        | some w =>
          by_cases h1 : e.1.1 + w ≤ maxD
          · by_cases h2 : improves dm v (e.1.1 + w)
            · simp only [h1, if_true, h2]
              simpa using Nat.succ_le_succ (ih (aset dm v (e.1.1 + w)))
            · simp only [h1, if_true, h2]
              simp only [Bool.false_eq_true, if_false]
              exact Nat.le_succ_of_le (ih dm)
          · simp only [h1, if_false]
            exact Nat.le_succ_of_le (ih dm)
    have hsucc : (successorIndices g e.1.2).length ≤ g.edges.length := by
      simp only [successorIndices, List.length_map, List.length_reverse]
      exact List.length_filter_le _ _
    cases pq with
    | nil => simp [pqPop] at hpop
    | cons a as =>
      simp only [pqPop, Option.some.injEq] at hpop
      have he2 : e.2 = (a :: as).erase (pqMinEntry a as) := by
        rw [← hpop]
      have hlen : e.2.length + 1 = (a :: as).length := by
        rw [he2, List.length_erase_of_mem (hmm a as)]
        simp
      simp only [loopMeasure, List.length_append]
      by_cases hu : e.1.2 ∈ srcFinset g
      · have hcard : (srcFinset g \ insert e.1.2 visited).card <
            (srcFinset g \ visited).card := by
          apply Finset.card_lt_card
          constructor
          · intro x hx
            rcases Finset.mem_sdiff.mp hx with ⟨hx1, hx2⟩
            exact Finset.mem_sdiff.mpr ⟨hx1, fun hcon => hx2 (Finset.mem_insert_of_mem hcon)⟩
          · intro hsub
            have : e.1.2 ∈ srcFinset g \ insert e.1.2 visited :=
              hsub (Finset.mem_sdiff.mpr ⟨hu, hv⟩)
            exact (Finset.mem_sdiff.mp this).2 (Finset.mem_insert_self _ _)
        have hmul : (srcFinset g \ insert e.1.2 visited).card * (g.edges.length + 1) +
            (g.edges.length + 1) ≤ (srcFinset g \ visited).card * (g.edges.length + 1) := by
          have h3 : (srcFinset g \ insert e.1.2 visited).card + 1 ≤
              (srcFinset g \ visited).card := hcard
          calc (srcFinset g \ insert e.1.2 visited).card * (g.edges.length + 1) +
                (g.edges.length + 1)
              = ((srcFinset g \ insert e.1.2 visited).card + 1) * (g.edges.length + 1) := by
                ring
            _ ≤ (srcFinset g \ visited).card * (g.edges.length + 1) :=
                Nat.mul_le_mul_right _ h3
        have h1 := hrel (successorIndices g e.1.2) dist
        have h2 := le_trans h1 hsucc
        omega
      · have hnil : successorIndices g e.1.2 = [] := by
          simp only [successorIndices]
          have : g.edges.filter (fun ed => ed.1 == e.1.2) = [] := by
            apply List.filter_eq_nil_iff.mpr
            intro ed hed
            simp only [beq_iff_eq]
            intro hcon
            apply hu
            simp only [srcFinset, List.mem_toFinset, List.mem_map]
            exact ⟨ed, hed, hcon⟩
          rw [this]
          simp
        have hcard : (srcFinset g \ insert e.1.2 visited).card ≤
            (srcFinset g \ visited).card := by
          apply Finset.card_le_card
          intro x hx
          rcases Finset.mem_sdiff.mp hx with ⟨hx1, hx2⟩
          exact Finset.mem_sdiff.mpr ⟨hx1, fun hcon => hx2 (Finset.mem_insert_of_mem hcon)⟩
        have hmul : (srcFinset g \ insert e.1.2 visited).card * (g.edges.length + 1) ≤
            (srcFinset g \ visited).card * (g.edges.length + 1) :=
          Nat.mul_le_mul_right _ hcard
        rw [hnil]
        simp only [relaxStep, List.length_nil]
        omega

/-- `bounded_dijkstra(graph, source, max_distance)` from
`src/walk_times/algorithms.py`: distances start at `{source: 0.0}`, the
queue at `[(0.0, source)]`, and the visited set empty. -/
def bounded_dijkstra (g : RxGraph) (source : ℕ) (maxD : ℚ) : DMap :=
  dijkstraLoop g maxD [(0, source)] ∅ [(source, 0)]

/-- Structurally recursive twin of `dijkstraLoop` driven by explicit fuel;
it computes the same function whenever the fuel exceeds the loop measure
(proved below) and exists so that concrete runs can be evaluated by the
kernel. -/
def dijkstraLoopF (g : RxGraph) (maxD : ℚ) :
    ℕ → List (ℚ × ℕ) → Finset ℕ → DMap → DMap
  | 0, _, _, dist => dist
  | fuel + 1, pq, visited, dist =>
    match pqPop pq with
    | none => dist
    | some e =>
      if e.1.2 ∈ visited then
        dijkstraLoopF g maxD fuel e.2 visited dist
      else if maxD < e.1.1 then
        dist
      else
        dijkstraLoopF g maxD fuel
          (e.2 ++ (relaxStep g maxD e.1.1 e.1.2 (successorIndices g e.1.2) dist).2)
          (insert e.1.2 visited)
          (relaxStep g maxD e.1.1 e.1.2 (successorIndices g e.1.2) dist).1

/-- A walk of total weight `c` from a source to a node, using the edge
weights the algorithm observes through `get_edge_data` (one representative
weight per ordered node pair). -/
inductive Reaches (g : RxGraph) : ℕ → ℕ → ℚ → Prop
  | refl (u : ℕ) : Reaches g u u 0
  | step {s u v : ℕ} {c w : ℚ} : Reaches g s u c → getEdgeData g u v = some w →
      Reaches g s v (c + w)

/-- A walk of total weight `c` in the true multigraph, where every parallel
edge is available. -/
inductive MultiReaches (g : RxGraph) : ℕ → ℕ → ℚ → Prop
  | refl (u : ℕ) : MultiReaches g u u 0
  | step {s u v : ℕ} {c w : ℚ} : MultiReaches g s u c → (u, v, w) ∈ g.edges →
      MultiReaches g s v (c + w)

/-- `c` is the exact shortest distance from `s` to `v` over the weights the
algorithm observes. -/
def IsMinDist (g : RxGraph) (s v : ℕ) (c : ℚ) : Prop :=
  Reaches g s v c ∧ ∀ c', Reaches g s v c' → c ≤ c'

/-- The NetworkX `MultiDiGraph` handed to the engine: node ids (OSM ids) in
insertion order and edges carrying an optional "time" attribute.  The time
attribute is `none` when the edge lacks a usable weight, in which case
`nx_to_rustworkx` substitutes its default weight. -/
structure NxGraph where
  nodes : List ℕ
  edges : List (ℕ × ℕ × Option ℚ)
deriving DecidableEq

/-- `get_node_mapping` from `src/walk_times/graph_utils.py`: enumerate the
nodes and return the `nx_id -> rx_idx` and `rx_idx -> nx_id` dictionaries. -/
def get_node_mapping (g : NxGraph) : List (ℕ × ℕ) × List (ℕ × ℕ) :=
  (g.nodes.enum.map (fun p => (p.2, p.1)), g.nodes.enum)

/-- `nx_to_rustworkx` from `src/walk_times/graph_utils.py`: add one
rustworkx node per NetworkX node and one rustworkx edge per NetworkX edge
(parallel edges included), substituting `defaultWeight` when the time
attribute is missing.  NetworkX guarantees that every edge endpoint is a
graph node, so the index lookups always succeed; the `getD 0` fallback is
unreachable for such graphs. -/
def nx_to_rustworkx (g : NxGraph) (defaultWeight : ℚ) :
    RxGraph × List (ℕ × ℕ) × List (ℕ × ℕ) :=
  let maps := get_node_mapping g
  let rxEdges := g.edges.map (fun e =>
    ((afind maps.1 e.1).getD 0, (afind maps.1 e.2.1).getD 0,
      match e.2.2 with
      | some w => w
      | none => defaultWeight))
  (⟨g.nodes.length, rxEdges⟩, maps.1, maps.2)

/-- `convert_node_ids_to_rx_indices` from `src/walk_times/graph_utils.py`:
return the rustworkx indices of the ids that are present, silently omitting
the missing ones (the returned list can be shorter than the input). -/
def convert_node_ids_to_rx_indices (nodeIds : List ℕ) (toRx : List (ℕ × ℕ)) : List ℕ :=
  nodeIds.filterMap (fun i => afind toRx i)

/-- The `conserved_land_rx_to_nx` dict comprehension of
`src/walk_times/calculate.py` (and its twin in `algorithms.py`):
`zip` pairs the full id list with the possibly shorter converted index
list, so when an id is absent from the graph the later ids are paired with
the wrong indices; the `if rx_idx is not None` guard never fires because
`convert_node_ids_to_rx_indices` omits missing ids instead of yielding
`None`. -/
def buildConservedMap (landIds : List ℕ) (toRx : List (ℕ × ℕ)) : List (ℕ × ℕ) :=
  (landIds.zip (convert_node_ids_to_rx_indices landIds toRx)).foldl
    (fun m p => aset m p.2 p.1) []

/-- The inner `for trip_time in sorted_trip_times: if distance <= trip_time:
... break` loop: first threshold in the given list order that the distance
fits into. -/
def firstFit (tts : List ℚ) (d : ℚ) : Option ℚ :=
  tts.find? (fun t => decide (d ≤ t))

/-- Python `sorted(trip_times)`. -/
def sortAsc (tts : List ℚ) : List ℚ :=
  List.insertionSort (fun a b => a ≤ b) tts

/-- Python `sorted(trip_times, reverse=True)`; with numeric keys a stable
descending sort coincides with the reverse of the ascending sort. -/
def sortDesc (tts : List ℚ) : List ℚ :=
  (List.insertionSort (fun a b => a ≤ b) tts).reverse

/-- Python `max(trip_times)` for the nonempty lists on which it is called;
the `[]` branch is unreachable because the callers fail on empty threshold
lists before and `max([])` raises. -/
def maxOf (tts : List ℚ) : ℚ :=
  match tts with
  | [] => 0
  | t :: ts => ts.foldl max t

/-- One output record `(center osmid, land osmid, trip time)`. -/
abbrev Rec := ℕ × ℕ × ℚ

/-- `get_lands` from `calculate.py` (serial engine): skip center nodes that
are absent from the graph, run one bounded search, and bucket each conserved
land found in the distance map into the first fitting threshold of
`sortedTT`.  The `try/except` around the search is dead in the model because
the modelled search is total. -/
def get_lands (rxg : RxGraph) (toRx : List (ℕ × ℕ)) (conserved : List (ℕ × ℕ))
    (sortedTT : List ℚ) (maxTT : ℚ) (center : ℕ) : List Rec :=
  match afind toRx center with
  | none => []
  | some cIdx =>
    let distances := bounded_dijkstra rxg cIdx maxTT
    conserved.flatMap (fun p =>
      match afind distances p.1 with
      | none => []
      | some dd =>
        match firstFit sortedTT dd with
        | none => []
        | some t => [(center, p.2, t)])

/-- `_process_single_center_node` from `algorithms.py` (parallel worker):
identical to `get_lands` except that its thresholds are sorted ascending by
the dispatcher. -/
def process_single_center_node (rxg : RxGraph) (toRx : List (ℕ × ℕ))
    (conserved : List (ℕ × ℕ)) (sortedTT : List ℚ) (maxTT : ℚ) (center : ℕ) :
    List Rec :=
  match afind toRx center with
  | none => []
  | some cIdx =>
    let distances := bounded_dijkstra rxg cIdx maxTT
    conserved.flatMap (fun p =>
      match afind distances p.1 with
      | none => []
      | some dd =>
        match firstFit sortedTT dd with
        | none => []
        | some t => [(center, p.2, t)])

/-- The fatal configuration failures of the walk-time pipeline:
`next(iter(graph.edges(...)))` raises `StopIteration` on a graph with no
edges, and `max(trip_times)` raises `ValueError` on an empty threshold
list. -/
inductive CalcError where
  | noEdges
  | emptyTripTimes
deriving DecidableEq

/-- Decidable equality of fallible results, so concrete pipeline runs can
be checked by evaluation. -/
instance instDecEqExcept {ε α : Type} [DecidableEq ε] [DecidableEq α] :
    DecidableEq (Except ε α)
  | Except.error e, Except.error f =>
    if h : e = f then isTrue (by rw [h]) else isFalse (fun hc => h (Except.error.inj hc))
  | Except.error _, Except.ok _ => isFalse (fun hc => Except.noConfusion hc)
  | Except.ok _, Except.error _ => isFalse (fun hc => Except.noConfusion hc)
  | Except.ok a, Except.ok b =>
    if h : a = b then isTrue (by rw [h]) else isFalse (fun hc => h (Except.ok.inj hc))

/-- The record list computed by the serial branch of `calculate_walk_times`
(`calculate.py`, `n_jobs == 1`): convert the graph once, build the conserved
land mapping, sort the thresholds DESCENDING (`reverse=True`), and
concatenate `get_lands` over the center nodes in order. -/
def calculate_walk_times_serial (centers : List ℕ) (g : NxGraph) (landIds : List ℕ)
    (tts : List ℚ) : List Rec :=
  let conv := nx_to_rustworkx g 1
  let conserved := buildConservedMap landIds conv.2.1
  centers.flatMap (get_lands conv.1 conv.2.1 conserved (sortDesc tts) (maxOf tts))

/-- The record list computed by `calculate_walk_times_parallel`
(`algorithms.py`): the same pipeline but with the thresholds sorted
ASCENDING.  `pool.imap`/`pool.map` return the per-center result lists in
input order whatever the worker count, and the flattening preserves that
order, so the output is independent of `n_jobs`. -/
def calculate_walk_times_parallel_core (centers : List ℕ) (g : NxGraph)
    (landIds : List ℕ) (tts : List ℚ) : List Rec :=
  let conv := nx_to_rustworkx g 1
  let conserved := buildConservedMap landIds conv.2.1
  centers.flatMap
    (process_single_center_node conv.1 conv.2.1 conserved (sortAsc tts) (maxOf tts))

/-- `calculate_walk_times_parallel` (`algorithms.py`) as a fallible
function: `max(trip_times)` raises before any worker runs when the
threshold list is empty; otherwise the workers produce the records of
`calculate_walk_times_parallel_core`, independently of the worker count
`n_jobs`. -/
def calculate_walk_times_parallel (centers : List ℕ) (g : NxGraph) (landIds : List ℕ)
    (tts : List ℚ) (n_jobs : ℕ) : Except CalcError (List Rec) :=
  if tts = [] then Except.error CalcError.emptyTripTimes
  else Except.ok (calculate_walk_times_parallel_core centers g landIds tts)

/-- `calculate_walk_times` (`calculate.py`): first touch of the graph is
`next(iter(graph.edges(...)))`, which raises on an edge-less graph; with
`n_jobs == 1` the serial branch runs (raising on an empty threshold list at
`max(trip_times)` before any search), otherwise the parallel dispatcher is
called.  `n_jobs` is an integer because Python accepts `-1` for "all
CPUs"; the resolved worker count does not change the record list. -/
def calculate_walk_times (centers : List ℕ) (g : NxGraph) (landIds : List ℕ)
    (tts : List ℚ) (n_jobs : ℤ) : Except CalcError (List Rec) :=
  if g.edges = [] then Except.error CalcError.noEdges
  else if n_jobs = 1 then
    if tts = [] then Except.error CalcError.emptyTripTimes
    else Except.ok (calculate_walk_times_serial centers g landIds tts)
  else calculate_walk_times_parallel centers g landIds tts 1

/-- The `if n_jobs is None: n_jobs = max(1, cpu_count() - 1)` default of
`calculate_walk_times_parallel` (`algorithms.py`, line 158); `cpuCount` is
the machine's `cpu_count()`.  No bound involving the number of origins is
applied anywhere before `Pool(processes=n_jobs)`. -/
def default_n_jobs (cpuCount : ℕ) : ℕ :=
  max 1 (cpuCount - 1)

/-- Concrete two-node street graph: one edge of one minute from node 1 to
node 2, time attributes present. -/
def CG1 : NxGraph := ⟨[1, 2], [(1, 2, some 1)]⟩

/-- Concrete multigraph: two parallel edges from node 1 to node 2 with
weights 1 and 5, in that insertion order. -/
def CG2 : NxGraph := ⟨[1, 2], [(1, 2, some 1), (1, 2, some 5)]⟩

/-- Concrete graph with one node and no edges. -/
def CG4 : NxGraph := ⟨[7], []⟩

/-- Everything the search loop maintains: recorded distances are realizable
and within the bound, queue entries are realizable, within the bound and
no better than the recorded distance of their node, visited nodes are
settled at their exact shortest distance, every relaxed edge out of the
settled region is covered by a queue entry, the source is settled or still
queued at distance `0`, and every recorded but unsettled node has a queue
entry at least as good as its record. -/
structure DijkInv (g : RxGraph) (s : ℕ) (maxD : ℚ) (pq : List (ℚ × ℕ))
    (visited : Finset ℕ) (dist : DMap) : Prop where
  dist_reach : ∀ v c, afind dist v = some c → Reaches g s v c ∧ c ≤ maxD
  pq_reach : ∀ e ∈ pq, Reaches g s e.2 e.1 ∧ e.1 ≤ maxD
  pq_dist : ∀ e ∈ pq, ∃ c, afind dist e.2 = some c ∧ c ≤ e.1
  visited_min : ∀ u ∈ visited, ∃ c, afind dist u = some c ∧ IsMinDist g s u c
  frontier : ∀ u ∈ visited, ∀ v w cu, getEdgeData g u v = some w → v ∉ visited →
      afind dist u = some cu → cu + w ≤ maxD → ∃ e ∈ pq, e.2 = v ∧ e.1 ≤ cu + w
  start : s ∈ visited ∨ (0, s) ∈ pq
  unvisited_dist : ∀ v c, afind dist v = some c → v ∉ visited →
      ∃ e ∈ pq, e.2 = v ∧ e.1 ≤ c

/-- Looking up the key just written returns the written value. -/
theorem afind_aset_self {β : Type} (m : List (ℕ × β)) (k : ℕ) (v : β) :
    afind (aset m k v) k = some v := by
  induction m with
  | nil => simp [aset, afind]
  | cons p rest ih =>
    by_cases h : p.1 = k
    · simp [aset, h, afind]
    · simp [aset, h, afind, ih]

/-- Writing one key leaves the other keys unchanged. -/
theorem afind_aset_ne {β : Type} (m : List (ℕ × β)) (k k' : ℕ) (v : β)
    (h : k' ≠ k) : afind (aset m k v) k' = afind m k' := by
  induction m with
  | nil =>
    simp only [aset, afind]
    rw [if_neg (fun hc => h hc.symm)]
  | cons p rest ih =>
    by_cases hp : p.1 = k
    · simp only [aset, hp, if_true]
      rw [afind, afind, if_neg (fun hc => h hc.symm), if_neg]
      rw [hp]
      exact fun hc => h hc.symm
    · simp only [aset, hp, if_false]
      rw [afind, afind]
      by_cases hpk : p.1 = k'
      · simp [hpk]
      · simp [hpk, ih]

/-- A lexicographically smaller-or-equal entry has a smaller-or-equal
distance. -/
theorem entLe_fst_le {a b : ℚ × ℕ} (h : entLe a b = true) : a.1 ≤ b.1 := by
  simp only [entLe, Bool.or_eq_true, Bool.and_eq_true, decide_eq_true_eq] at h
  rcases h with h | ⟨h, _⟩
  · exact le_of_lt h
  · exact le_of_eq h

/-- Failing the lexicographic test means the distance is at least as large. -/
theorem entLe_false_fst_le {a b : ℚ × ℕ} (h : entLe a b = false) : b.1 ≤ a.1 := by
  simp only [entLe, Bool.or_eq_false_iff, Bool.and_eq_false_iff] at h
  rcases h with ⟨h1, _⟩
  exact le_of_not_lt (by simpa using h1)

/-- The selected minimum is one of the candidate entries. -/
theorem pqMinEntry_mem (a : ℚ × ℕ) (l : List (ℚ × ℕ)) : pqMinEntry a l ∈ a :: l := by
  induction l generalizing a with
  | nil => simp [pqMinEntry]
  | cons b bs ih =>
    rw [pqMinEntry]
    by_cases hab : entLe a b
    · rw [if_pos hab]
      rcases List.mem_cons.mp (ih a) with h1 | h1
      · simp [h1]
      · simp [h1]
    · rw [if_neg hab]
      rcases List.mem_cons.mp (ih b) with h1 | h1
      · simp [h1]
      · simp [h1]

/-- The selected minimum has the smallest distance among the candidates. -/
theorem pqMinEntry_fst_le (a : ℚ × ℕ) (l : List (ℚ × ℕ)) :
    ∀ x ∈ a :: l, (pqMinEntry a l).1 ≤ x.1 := by
  induction l generalizing a with
  | nil =>
    intro x hx
    rcases List.mem_cons.mp hx with h | h
    · rw [h]; simp [pqMinEntry]
    · simp at h
  | cons b bs ih =>
    intro x hx
    rw [pqMinEntry]
    have hsel : ∀ y, (y = a ∨ y = b) →
        (pqMinEntry (if entLe a b then a else b) bs).1 ≤ y.1 := by
      intro y hy
      have hhead := ih (if entLe a b then a else b)
        (if entLe a b then a else b) (List.mem_cons_self _ _)
      by_cases hab : entLe a b
      · rw [if_pos hab] at hhead ⊢
        rcases hy with rfl | rfl
        · exact hhead
        · exact le_trans hhead (entLe_fst_le hab)
      · rw [if_neg hab] at hhead ⊢
        rcases hy with rfl | rfl
        · exact le_trans hhead (entLe_false_fst_le (Bool.eq_false_iff.mpr hab))
        · exact hhead
    rcases List.mem_cons.mp hx with h | h
    · exact hsel x (Or.inl h)
    · rcases List.mem_cons.mp h with h2 | h2
      · exact hsel x (Or.inr h2)
      · exact ih (if entLe a b then a else b) x (List.mem_cons_of_mem _ h2)

/-- `pqPop` returns `none` exactly on the empty queue. -/
theorem pqPop_none_iff (pq : List (ℚ × ℕ)) : pqPop pq = none ↔ pq = [] := by
  cases pq <;> simp [pqPop]

/-- The popped entry was in the queue. -/
theorem pqPop_mem {pq rest : List (ℚ × ℕ)} {m : ℚ × ℕ}
    (h : pqPop pq = some (m, rest)) : m ∈ pq := by
  cases pq with
  | nil => simp [pqPop] at h
  | cons a as =>
    simp only [pqPop, Option.some.injEq, Prod.mk.injEq] at h
    rw [← h.1]
    exact pqMinEntry_mem a as

/-- The popped entry has the smallest distance in the queue. -/
theorem pqPop_min {pq rest : List (ℚ × ℕ)} {m : ℚ × ℕ}
    (h : pqPop pq = some (m, rest)) : ∀ x ∈ pq, m.1 ≤ x.1 := by
  cases pq with
  | nil => simp [pqPop] at h
  | cons a as =>
    simp only [pqPop, Option.some.injEq, Prod.mk.injEq] at h
    rw [← h.1]
    exact pqMinEntry_fst_le a as

/-- The remaining entries were all in the queue. -/
theorem pqPop_rest_sub {pq rest : List (ℚ × ℕ)} {m : ℚ × ℕ}
    (h : pqPop pq = some (m, rest)) : ∀ x ∈ rest, x ∈ pq := by
  cases pq with
  | nil => simp [pqPop] at h
  | cons a as =>
    simp only [pqPop, Option.some.injEq, Prod.mk.injEq] at h
    intro x hx
    rw [← h.2] at hx
    exact List.mem_of_mem_erase hx

/-- Queue entries other than the popped one survive the pop. -/
theorem pqPop_rest_of_ne {pq rest : List (ℚ × ℕ)} {m x : ℚ × ℕ}
    (h : pqPop pq = some (m, rest)) (hx : x ∈ pq) (hne : x ≠ m) : x ∈ rest := by
  cases pq with
  | nil => simp at hx
  | cons a as =>
    simp only [pqPop, Option.some.injEq, Prod.mk.injEq] at h
    rw [← h.2]
    rw [← h.1] at hne
    exact (List.mem_erase_of_ne hne).mpr hx

/-- The pop removes exactly one entry. -/
theorem pqPop_length {pq rest : List (ℚ × ℕ)} {m : ℚ × ℕ}
    (h : pqPop pq = some (m, rest)) : rest.length + 1 = pq.length := by
  cases pq with
  | nil => simp [pqPop] at h
  | cons a as =>
    simp only [pqPop, Option.some.injEq, Prod.mk.injEq] at h
    rw [← h.2, List.length_erase_of_mem (pqMinEntry_mem a as)]
    simp

/-- A `getLast?` result is a member of the list. -/
theorem mem_of_getLast_eq_some {α : Type} {l : List α} {a : α}
    (h : l.getLast? = some a) : a ∈ l := by
  induction l with
  | nil => simp at h
  | cons b bs ih =>
    cases bs with
    | nil =>
      simp only [List.getLast?_singleton, Option.some.injEq] at h
      simp [h]
    | cons c cs =>
      rw [List.getLast?_cons_cons] at h
      exact List.mem_cons_of_mem _ (ih h)

/-- The weight observed by `get_edge_data` is the weight of an actual edge. -/
theorem getEdgeData_mem {g : RxGraph} {u v : ℕ} {w : ℚ}
    (h : getEdgeData g u v = some w) : (u, v, w) ∈ g.edges := by
  simp only [getEdgeData, Option.map_eq_some'] at h
  rcases h with ⟨e, he, hw⟩
  have hmem := mem_of_getLast_eq_some he
  rcases List.mem_filter.mp hmem with ⟨hedges, hp⟩
  simp only [Bool.and_eq_true, beq_iff_eq] at hp
  have heq : e = (u, v, w) := by
    rcases e with ⟨e1, e2, e3⟩
    simp only at hp hw
    simp [hp.1, hp.2, hw]
  rw [heq] at hedges
  exact hedges

/-- Placeholder kept separate: see `getEdgeData_mem`. -/
theorem getEdgeData_nonneg {g : RxGraph} {u v : ℕ} {w : ℚ} (hnn : g.Nonneg)
    (h : getEdgeData g u v = some w) : 0 ≤ w :=
  hnn _ (getEdgeData_mem h)

/-- Any edge out of `u` puts its target among `u`'s successor indices. -/
theorem mem_successorIndices_of_getEdgeData {g : RxGraph} {u v : ℕ} {w : ℚ}
    (h : getEdgeData g u v = some w) : v ∈ successorIndices g u := by
  simp only [getEdgeData, Option.map_eq_some'] at h
  rcases h with ⟨e, he, _⟩
  have hmem := mem_of_getLast_eq_some he
  rcases List.mem_filter.mp hmem with ⟨hedges, hp⟩
  simp only [Bool.and_eq_true, beq_iff_eq] at hp
  simp only [successorIndices, List.mem_map, List.mem_reverse]
  refine ⟨e, List.mem_filter.mpr ⟨hedges, ?_⟩, hp.2⟩
  simp [hp.1]

/-- With nonnegative weights every observed walk has nonnegative cost. -/
theorem Reaches.nonneg {g : RxGraph} {s v : ℕ} {c : ℚ} (hnn : g.Nonneg)
    (h : Reaches g s v c) : 0 ≤ c := by
  induction h with
  | refl => exact le_refl 0
  | step hr hed ih => exact add_nonneg ih (getEdgeData_nonneg hnn hed)

/-- Shortest distances are unique. -/
theorem IsMinDist.unique {g : RxGraph} {s v : ℕ} {c c' : ℚ}
    (h : IsMinDist g s v c) (h' : IsMinDist g s v c') : c = c' :=
  le_antisymm (h.2 c' h'.1) (h'.2 c h.1)

/-- Unfolding the search loop on an empty queue. -/
theorem dijkstraLoop_pop_none {g : RxGraph} {maxD : ℚ} {pq : List (ℚ × ℕ)}
    {visited : Finset ℕ} {dist : DMap} (h : pqPop pq = none) :
    dijkstraLoop g maxD pq visited dist = dist := by
  rw [dijkstraLoop]
  split
  · rfl
  · rename_i e heq
    exact absurd (h.symm.trans heq) (by simp)

/-- Unfolding the search loop when the popped node is already visited. -/
theorem dijkstraLoop_skip {g : RxGraph} {maxD : ℚ} {pq rest : List (ℚ × ℕ)}
    {visited : Finset ℕ} {dist : DMap} {c : ℚ} {u : ℕ}
    (h : pqPop pq = some ((c, u), rest)) (hv : u ∈ visited) :
    dijkstraLoop g maxD pq visited dist = dijkstraLoop g maxD rest visited dist := by
  rw [dijkstraLoop]
  split
  · rename_i heq
    exact absurd (h.symm.trans heq) (by simp)
  · rename_i e heq
    cases Option.some.inj (h.symm.trans heq)
    rw [dif_pos hv]

/-- Unfolding the search loop when the popped entry exceeds the bound: the
whole search stops at once and returns the accumulated distances. -/
theorem dijkstraLoop_break {g : RxGraph} {maxD : ℚ} {pq rest : List (ℚ × ℕ)}
    {visited : Finset ℕ} {dist : DMap} {c : ℚ} {u : ℕ}
    (h : pqPop pq = some ((c, u), rest)) (hv : u ∉ visited) (hc : maxD < c) :
    dijkstraLoop g maxD pq visited dist = dist := by
  rw [dijkstraLoop]
  split
  · rename_i heq
    exact absurd (h.symm.trans heq) (by simp)
  · rename_i e heq
    cases Option.some.inj (h.symm.trans heq)
    rw [dif_neg hv, if_pos hc]

/-- Unfolding the search loop when the popped node gets settled. -/
theorem dijkstraLoop_settle {g : RxGraph} {maxD : ℚ} {pq rest : List (ℚ × ℕ)}
    {visited : Finset ℕ} {dist : DMap} {c : ℚ} {u : ℕ}
    (h : pqPop pq = some ((c, u), rest)) (hv : u ∉ visited) (hc : ¬ maxD < c) :
    dijkstraLoop g maxD pq visited dist =
      dijkstraLoop g maxD
        (rest ++ (relaxStep g maxD c u (successorIndices g u) dist).2)
        (insert u visited)
        (relaxStep g maxD c u (successorIndices g u) dist).1 := by
  rw [dijkstraLoop]
  split
  · rename_i heq
    exact absurd (h.symm.trans heq) (by simp)
  · rename_i e heq
    cases Option.some.inj (h.symm.trans heq)
    rw [dif_neg hv, if_neg hc]

/-- A failed improvement check means the node already has a distance at
least as good. -/
theorem improves_false {m : DMap} {v : ℕ} {nd : ℚ} (h : improves m v nd = false) :
    ∃ old, afind m v = some old ∧ old ≤ nd := by
  unfold improves at h
  cases ha : afind m v with
  | none => rw [ha] at h; simp at h
  | some old =>
    rw [ha] at h
    simp only [decide_eq_false_iff_not, not_lt] at h
    exact ⟨old, rfl, h⟩

/-- Unfolding a relaxation pass: no edge to the next listed successor. -/
theorem relaxStep_cons_none {g : RxGraph} {maxD d : ℚ} {u v0 : ℕ} {vs : List ℕ}
    {dist : DMap} (h : getEdgeData g u v0 = none) :
    relaxStep g maxD d u (v0 :: vs) dist = relaxStep g maxD d u vs dist := by
  rw [relaxStep]
  simp only [h]

/-- Unfolding a relaxation pass: the candidate distance exceeds the bound. -/
theorem relaxStep_cons_far {g : RxGraph} {maxD d : ℚ} {u v0 : ℕ} {vs : List ℕ}
    {dist : DMap} {w : ℚ} (h : getEdgeData g u v0 = some w) (hle : ¬ d + w ≤ maxD) :
    relaxStep g maxD d u (v0 :: vs) dist = relaxStep g maxD d u vs dist := by
  rw [relaxStep]
  simp only [h]
  rw [if_neg hle]

/-- Unfolding a relaxation pass: the candidate distance does not improve. -/
theorem relaxStep_cons_noimp {g : RxGraph} {maxD d : ℚ} {u v0 : ℕ} {vs : List ℕ}
    {dist : DMap} {w : ℚ} (h : getEdgeData g u v0 = some w) (hle : d + w ≤ maxD)
    (himp : ¬ improves dist v0 (d + w) = true) :
    relaxStep g maxD d u (v0 :: vs) dist = relaxStep g maxD d u vs dist := by
  rw [relaxStep]
  simp only [h]
  rw [if_pos hle, if_neg himp]

/-- Unfolding a relaxation pass: the candidate improves, so the record is
updated and the entry pushed. -/
theorem relaxStep_cons_push {g : RxGraph} {maxD d : ℚ} {u v0 : ℕ} {vs : List ℕ}
    {dist : DMap} {w : ℚ} (h : getEdgeData g u v0 = some w) (hle : d + w ≤ maxD)
    (himp : improves dist v0 (d + w) = true) :
    relaxStep g maxD d u (v0 :: vs) dist =
      ((relaxStep g maxD d u vs (aset dist v0 (d + w))).1,
        (d + w, v0) :: (relaxStep g maxD d u vs (aset dist v0 (d + w))).2) := by
  rw [relaxStep]
  simp only [h]
  rw [if_pos hle, if_pos himp]

/-- A relaxation pass keeps every recorded distance realizable and within
the bound, provided the settled node is reached at its settle distance. -/
theorem relaxStep_reach {g : RxGraph} {s : ℕ} {maxD d : ℚ} {u : ℕ}
    (hu : Reaches g s u d) :
    ∀ (vs : List ℕ) (dist : DMap),
      (∀ v c, afind dist v = some c → Reaches g s v c ∧ c ≤ maxD) →
      ∀ v c, afind (relaxStep g maxD d u vs dist).1 v = some c →
        Reaches g s v c ∧ c ≤ maxD := by
  intro vs
  induction vs with
  | nil => intro dist hbase v c hv; exact hbase v c hv
  | cons v0 vs ih =>
    intro dist hbase v c hv
    cases hgd : getEdgeData g u v0 with
    | none =>
      rw [relaxStep_cons_none hgd] at hv
      exact ih dist hbase v c hv
    | some w =>
      by_cases hle : d + w ≤ maxD
      · by_cases himp : improves dist v0 (d + w)
        · rw [relaxStep_cons_push hgd hle himp] at hv
          refine ih (aset dist v0 (d + w)) ?_ v c hv
          intro v' c' hv'
          by_cases hv0 : v' = v0
          · subst hv0
            rw [afind_aset_self] at hv'
            cases hv'
            exact ⟨Reaches.step hu hgd, hle⟩
          · rw [afind_aset_ne dist v0 v' (d + w) hv0] at hv'
            exact hbase v' c' hv'
        · rw [relaxStep_cons_noimp hgd hle himp] at hv
          exact ih dist hbase v c hv
      · rw [relaxStep_cons_far hgd hle] at hv
        exact ih dist hbase v c hv

/-- A relaxation pass never worsens a recorded distance. -/
theorem relaxStep_mono {g : RxGraph} {maxD d : ℚ} {u : ℕ} :
    ∀ (vs : List ℕ) (dist : DMap) (v : ℕ) (c : ℚ), afind dist v = some c →
      ∃ c', afind (relaxStep g maxD d u vs dist).1 v = some c' ∧ c' ≤ c := by
  intro vs
  induction vs with
  | nil => intro dist v c hv; exact ⟨c, hv, le_refl c⟩
  | cons v0 vs ih =>
    intro dist v c hv
    cases hgd : getEdgeData g u v0 with
    | none =>
      rw [relaxStep_cons_none hgd]
      exact ih dist v c hv
    | some w =>
      by_cases hle : d + w ≤ maxD
      · by_cases himp : improves dist v0 (d + w)
        · rw [relaxStep_cons_push hgd hle himp]
          by_cases hv0 : v = v0
          · have himp2 : d + w < c := by
              unfold improves at himp
              rw [hv0] at hv
              rw [hv] at himp
              simpa using himp
            rcases ih (aset dist v0 (d + w)) v (d + w)
                (by rw [hv0]; exact afind_aset_self dist v0 (d + w)) with ⟨c', hc1, hc2⟩
            exact ⟨c', hc1, le_trans hc2 (le_of_lt himp2)⟩
          · rcases ih (aset dist v0 (d + w)) v c
                (by rw [afind_aset_ne dist v0 v (d + w) hv0]; exact hv) with ⟨c', hc1, hc2⟩
            exact ⟨c', hc1, hc2⟩
        · rw [relaxStep_cons_noimp hgd hle himp]
          exact ih dist v c hv
      · rw [relaxStep_cons_far hgd hle]
        exact ih dist v c hv

/-- Every entry pushed by a relaxation pass is the settle distance plus an
observed edge weight, is within the bound, and is matched by a recorded
distance at least as good. -/
theorem relaxStep_pushes {g : RxGraph} {maxD d : ℚ} {u : ℕ} :
    ∀ (vs : List ℕ) (dist : DMap) (e : ℚ × ℕ), e ∈ (relaxStep g maxD d u vs dist).2 →
      (∃ w, getEdgeData g u e.2 = some w ∧ e.1 = d + w) ∧ e.1 ≤ maxD ∧
        ∃ c', afind (relaxStep g maxD d u vs dist).1 e.2 = some c' ∧ c' ≤ e.1 := by
  intro vs
  induction vs with
  | nil => intro dist e he; simp [relaxStep] at he
  | cons v0 vs ih =>
    intro dist e he
    cases hgd : getEdgeData g u v0 with
    | none =>
      rw [relaxStep_cons_none hgd] at he ⊢
      exact ih dist e he
    | some w =>
      by_cases hle : d + w ≤ maxD
      · by_cases himp : improves dist v0 (d + w)
        · rw [relaxStep_cons_push hgd hle himp] at he ⊢
          rcases List.mem_cons.mp he with he1 | he1
          · rw [he1]
            refine ⟨⟨w, hgd, rfl⟩, hle, ?_⟩
            rcases relaxStep_mono vs (aset dist v0 (d + w)) v0 (d + w)
                (afind_aset_self dist v0 (d + w)) with ⟨c', hc1, hc2⟩
            exact ⟨c', hc1, hc2⟩
          · exact ih (aset dist v0 (d + w)) e he1
        · rw [relaxStep_cons_noimp hgd hle himp] at he ⊢
          exact ih dist e he
      · rw [relaxStep_cons_far hgd hle] at he ⊢
        exact ih dist e he

/-- Every in-bound edge out of the settled node whose target is listed gets
either a fresh push or was already recorded at least as good. -/
theorem relaxStep_complete {g : RxGraph} {maxD d : ℚ} {u : ℕ} :
    ∀ (vs : List ℕ) (dist : DMap) (v : ℕ) (w : ℚ),
      getEdgeData g u v = some w → v ∈ vs → d + w ≤ maxD →
      (∃ e ∈ (relaxStep g maxD d u vs dist).2, e.2 = v ∧ e.1 ≤ d + w) ∨
      (∃ c0, afind dist v = some c0 ∧ c0 ≤ d + w) := by
  intro vs
  induction vs with
  | nil => intro dist v w _ hv _; simp at hv
  | cons v0 vs ih =>
    intro dist v w hgdv hv hle
    by_cases hvv0 : v = v0
    · subst hvv0
      by_cases himp : improves dist v (d + w)
      · rw [relaxStep_cons_push hgdv hle himp]
        exact Or.inl ⟨(d + w, v), List.mem_cons_self _ _, rfl, le_refl _⟩
      · rcases improves_false (Bool.eq_false_iff.mpr himp) with ⟨old, ho1, ho2⟩
        exact Or.inr ⟨old, ho1, ho2⟩
    · have hvtail : v ∈ vs := by
        rcases List.mem_cons.mp hv with h1 | h1
        · exact absurd h1 hvv0
        · exact h1
      cases hgd0 : getEdgeData g u v0 with
      | none =>
        rw [relaxStep_cons_none hgd0]
        exact ih dist v w hgdv hvtail hle
      | some w0 =>
        by_cases hle0 : d + w0 ≤ maxD
        · by_cases himp0 : improves dist v0 (d + w0)
          · rw [relaxStep_cons_push hgd0 hle0 himp0]
            rcases ih (aset dist v0 (d + w0)) v w hgdv hvtail hle with h1 | h1
            · rcases h1 with ⟨e, he1, he2, he3⟩
              exact Or.inl ⟨e, List.mem_cons_of_mem _ he1, he2, he3⟩
            · rcases h1 with ⟨c0, hc1, hc2⟩
              rw [afind_aset_ne dist v0 v (d + w0) hvv0] at hc1
              exact Or.inr ⟨c0, hc1, hc2⟩
          · rw [relaxStep_cons_noimp hgd0 hle0 himp0]
            exact ih dist v w hgdv hvtail hle
        · rw [relaxStep_cons_far hgd0 hle0]
          exact ih dist v w hgdv hvtail hle

/-- After a relaxation pass, each node either kept its old record or its
final record is the distance of one of the pushed entries. -/
theorem relaxStep_change {g : RxGraph} {maxD d : ℚ} {u : ℕ} :
    ∀ (vs : List ℕ) (dist : DMap) (v : ℕ),
      afind (relaxStep g maxD d u vs dist).1 v = afind dist v ∨
      ∃ e ∈ (relaxStep g maxD d u vs dist).2, e.2 = v ∧
        afind (relaxStep g maxD d u vs dist).1 v = some e.1 := by
  intro vs
  induction vs with
  | nil => intro dist v; exact Or.inl rfl
  | cons v0 vs ih =>
    intro dist v
    cases hgd : getEdgeData g u v0 with
    | none =>
      rw [relaxStep_cons_none hgd]
      exact ih dist v
    | some w =>
      by_cases hle : d + w ≤ maxD
      · by_cases himp : improves dist v0 (d + w)
        · rw [relaxStep_cons_push hgd hle himp]
          rcases ih (aset dist v0 (d + w)) v with h1 | h1
          · by_cases hvv0 : v = v0
            · refine Or.inr ⟨(d + w, v0), List.mem_cons_self _ _, hvv0.symm, ?_⟩
              rw [h1, hvv0]
              exact afind_aset_self dist v0 (d + w)
            · rw [afind_aset_ne dist v0 v (d + w) hvv0] at h1
              exact Or.inl h1
          · rcases h1 with ⟨e, he1, he2, he3⟩
            exact Or.inr ⟨e, List.mem_cons_of_mem _ he1, he2, he3⟩
        · rw [relaxStep_cons_noimp hgd hle himp]
          exact ih dist v
      · rw [relaxStep_cons_far hgd hle]
        exact ih dist v

/-- Any in-bound walk to an unsettled node is intercepted by a queue entry
at least as good: the path either starts unsettled (the initial entry) or
crosses the settled frontier. -/
theorem DijkInv.cover {g : RxGraph} {s : ℕ} {maxD : ℚ} {pq : List (ℚ × ℕ)}
    {visited : Finset ℕ} {dist : DMap} (inv : DijkInv g s maxD pq visited dist)
    (hnn : g.Nonneg) {t : ℕ} {cp : ℚ} (hr : Reaches g s t cp) :
    cp ≤ maxD → t ∉ visited → ∃ e ∈ pq, e.1 ≤ cp := by
  induction hr with
  | refl =>
    intro _ hs
    rcases inv.start with h | h
    · exact absurd h hs
    · exact ⟨(0, s), h, le_refl 0⟩
  | step hr hed ih =>
    rename_i u v c w
    intro hcp hv
    by_cases hu : u ∈ visited
    · rcases inv.visited_min u hu with ⟨cu, hcu, hminu⟩
      have hcuc : cu ≤ c := hminu.2 c hr
      have hcw : cu + w ≤ maxD := le_trans (add_le_add_right hcuc w) hcp
      rcases inv.frontier u hu v w cu hed hv hcu hcw with ⟨e, he1, _, he3⟩
      exact ⟨e, he1, le_trans he3 (le_trans (add_le_add_right hcuc w) (le_refl (c + w)))⟩
    · have hw : 0 ≤ w := getEdgeData_nonneg hnn hed
      have hc : c ≤ maxD := le_trans (le_add_of_nonneg_right hw) hcp
      rcases ih hc hu with ⟨e, he1, he2⟩
      exact ⟨e, he1, le_trans he2 (le_add_of_nonneg_right hw)⟩

/-- Popping an unvisited entry yields its node's exact shortest distance,
which is moreover already recorded. -/
theorem settle_min {g : RxGraph} {s : ℕ} {maxD : ℚ} {pq rest : List (ℚ × ℕ)}
    {visited : Finset ℕ} {dist : DMap} {c : ℚ} {u : ℕ}
    (inv : DijkInv g s maxD pq visited dist) (hnn : g.Nonneg)
    (hpop : pqPop pq = some ((c, u), rest)) (hu : u ∉ visited) :
    IsMinDist g s u c ∧ afind dist u = some c := by
  have hmem := pqPop_mem hpop
  have hreach := inv.pq_reach ((c, u)) hmem
  have hminq := pqPop_min hpop
  have hmin : ∀ c', Reaches g s u c' → c ≤ c' := by
    intro c' hc'
    by_cases hle : c' ≤ maxD
    · rcases inv.cover hnn hc' hle hu with ⟨e, he, hle2⟩
      exact le_trans (hminq e he) hle2
    · exact le_of_lt (lt_of_le_of_lt hreach.2 (lt_of_not_ge hle))
  rcases inv.pq_dist ((c, u)) hmem with ⟨cu, hcu, hcu2⟩
  have hrcu : Reaches g s u cu := (inv.dist_reach u cu hcu).1
  have hceq : cu = c := le_antisymm hcu2 (hmin cu hrcu)
  refine ⟨⟨hreach.1, hmin⟩, ?_⟩
  rw [hcu, hceq]

/-- Skipping an already-visited entry preserves the invariant. -/
theorem DijkInv.skip {g : RxGraph} {s : ℕ} {maxD : ℚ} {pq rest : List (ℚ × ℕ)}
    {visited : Finset ℕ} {dist : DMap} {c : ℚ} {u : ℕ}
    (inv : DijkInv g s maxD pq visited dist)
    (hpop : pqPop pq = some ((c, u), rest)) (hu : u ∈ visited) :
    DijkInv g s maxD rest visited dist := by
  refine ⟨inv.dist_reach, ?_, ?_, inv.visited_min, ?_, ?_, ?_⟩
  · intro e he
    exact inv.pq_reach e (pqPop_rest_sub hpop e he)
  · intro e he
    exact inv.pq_dist e (pqPop_rest_sub hpop e he)
  · intro u0 hu0 v w cu hed hv hcu hle
    rcases inv.frontier u0 hu0 v w cu hed hv hcu hle with ⟨e, he1, he2, he3⟩
    refine ⟨e, pqPop_rest_of_ne hpop he1 ?_, he2, he3⟩
    intro hcon
    rw [hcon] at he2
    exact hv (he2 ▸ hu)
  · rcases inv.start with h | h
    · exact Or.inl h
    · by_cases hs : ((0 : ℚ), s) = ((c : ℚ), u)
      · left
        have hsu : s = u := congrArg Prod.snd hs
        rw [hsu]
        exact hu
      · exact Or.inr (pqPop_rest_of_ne hpop h hs)
  · intro v c0 hv0 hnv
    rcases inv.unvisited_dist v c0 hv0 hnv with ⟨e, he1, he2, he3⟩
    refine ⟨e, pqPop_rest_of_ne hpop he1 ?_, he2, he3⟩
    intro hcon
    rw [hcon] at he2
    exact hnv (he2 ▸ hu)

/-- Settling an unvisited minimal entry preserves the invariant. -/
theorem DijkInv.settle {g : RxGraph} {s : ℕ} {maxD : ℚ} {pq rest : List (ℚ × ℕ)}
    {visited : Finset ℕ} {dist : DMap} {c : ℚ} {u : ℕ}
    (inv : DijkInv g s maxD pq visited dist) (hnn : g.Nonneg)
    (hpop : pqPop pq = some ((c, u), rest)) (hu : u ∉ visited) :
    DijkInv g s maxD
      (rest ++ (relaxStep g maxD c u (successorIndices g u) dist).2)
      (insert u visited)
      (relaxStep g maxD c u (successorIndices g u) dist).1 := by
  obtain ⟨hmin, hdu⟩ := settle_min inv hnn hpop hu
  have hreachu : Reaches g s u c := hmin.1
  have hdr : ∀ v c', afind (relaxStep g maxD c u (successorIndices g u) dist).1 v =
      some c' → Reaches g s v c' ∧ c' ≤ maxD :=
    relaxStep_reach hreachu (successorIndices g u) dist inv.dist_reach
  have hstable : ∀ v cv, afind dist v = some cv → IsMinDist g s v cv →
      afind (relaxStep g maxD c u (successorIndices g u) dist).1 v = some cv := by
    intro v cv hv hminv
    rcases relaxStep_mono (successorIndices g u) dist v cv hv with ⟨c', hc1, hc2⟩
    have hge : cv ≤ c' := hminv.2 c' (hdr v c' hc1).1
    rw [hc1, le_antisymm hc2 hge]
  have hru : afind (relaxStep g maxD c u (successorIndices g u) dist).1 u = some c :=
    hstable u c hdu hmin
  refine ⟨hdr, ?_, ?_, ?_, ?_, ?_, ?_⟩
  · intro e he
    rcases List.mem_append.mp he with he1 | he1
    · exact inv.pq_reach e (pqPop_rest_sub hpop e he1)
    · rcases relaxStep_pushes (successorIndices g u) dist e he1 with ⟨⟨w, hw1, hw2⟩, hle, _⟩
      refine ⟨?_, hle⟩
      rw [hw2]
      exact Reaches.step hreachu hw1
  · intro e he
    rcases List.mem_append.mp he with he1 | he1
    · rcases inv.pq_dist e (pqPop_rest_sub hpop e he1) with ⟨c0, hc0, hc0le⟩
      rcases relaxStep_mono (successorIndices g u) dist e.2 c0 hc0 with ⟨c', hc1, hc2⟩
      exact ⟨c', hc1, le_trans hc2 hc0le⟩
    · rcases relaxStep_pushes (successorIndices g u) dist e he1 with ⟨_, _, hc⟩
      exact hc
  · intro v hv
    rcases Finset.mem_insert.mp hv with hv1 | hv1
    · subst hv1
      exact ⟨c, hru, hmin⟩
    · rcases inv.visited_min v hv1 with ⟨cv, hcv, hminv⟩
      exact ⟨cv, hstable v cv hcv hminv, hminv⟩
  · intro u0 hu0 v w cu hed hv hcu hle
    have hv2 : v ∉ visited ∧ v ≠ u := by
      constructor
      · intro hcon
        exact hv (Finset.mem_insert_of_mem hcon)
      · intro hcon
        exact hv (hcon ▸ Finset.mem_insert_self u visited)
    rcases Finset.mem_insert.mp hu0 with hu1 | hu1
    · subst hu1
      have hcuc : cu = c := by
        rw [hru] at hcu
        exact (Option.some.inj hcu).symm
      subst hcuc
      rcases relaxStep_complete (successorIndices g u0) dist v w hed
          (mem_successorIndices_of_getEdgeData hed) hle with h1 | h1
      · rcases h1 with ⟨e, he1, he2, he3⟩
        exact ⟨e, List.mem_append_right _ he1, he2, he3⟩
      · rcases h1 with ⟨c0, hc1, hc2⟩
        rcases inv.unvisited_dist v c0 hc1 hv2.1 with ⟨e, he1, he2, he3⟩
        refine ⟨e, List.mem_append_left _ (pqPop_rest_of_ne hpop he1 ?_), he2,
          le_trans he3 hc2⟩
        intro hcon
        rw [hcon] at he2
        exact hv2.2 he2.symm
    · rcases inv.visited_min u0 hu1 with ⟨cu0, hcu0, hminu0⟩
      have hcueq : cu = cu0 := by
        rw [hstable u0 cu0 hcu0 hminu0] at hcu
        exact (Option.some.inj hcu).symm
      subst hcueq
      rcases inv.frontier u0 hu1 v w cu hed hv2.1 hcu0 hle with ⟨e, he1, he2, he3⟩
      refine ⟨e, List.mem_append_left _ (pqPop_rest_of_ne hpop he1 ?_), he2, he3⟩
      intro hcon
      rw [hcon] at he2
      exact hv2.2 he2.symm
  · by_cases hs : s = u
    · left
      rw [hs]
      exact Finset.mem_insert_self u visited
    · rcases inv.start with h | h
      · exact Or.inl (Finset.mem_insert_of_mem h)
      · refine Or.inr (List.mem_append_left _ (pqPop_rest_of_ne hpop h ?_))
        intro hcon
        exact hs (congrArg Prod.snd hcon)
  · intro v c0 hv0 hnv
    have hv2 : v ∉ visited ∧ v ≠ u := by
      constructor
      · intro hcon
        exact hnv (Finset.mem_insert_of_mem hcon)
      · intro hcon
        exact hnv (hcon ▸ Finset.mem_insert_self u visited)
    rcases relaxStep_change (successorIndices g u) dist v with h1 | h1
    · rw [h1] at hv0
      rcases inv.unvisited_dist v c0 hv0 hv2.1 with ⟨e, he1, he2, he3⟩
      refine ⟨e, List.mem_append_left _ (pqPop_rest_of_ne hpop he1 ?_), he2, he3⟩
      intro hcon
      rw [hcon] at he2
      exact hv2.2 he2.symm
    · rcases h1 with ⟨e, he1, he2, he3⟩
      rw [hv0] at he3
      refine ⟨e, List.mem_append_right _ he1, he2, ?_⟩
      rw [Option.some.inj he3]

/-- Push lists are no longer than the successor list they process. -/
theorem relaxStep_len {g : RxGraph} {maxD d : ℚ} {u : ℕ} :
    ∀ (vs : List ℕ) (dm : DMap), (relaxStep g maxD d u vs dm).2.length ≤ vs.length := by
  intro vs
  induction vs with
  | nil => intro dm; simp [relaxStep]
  | cons v0 vs ih =>
    intro dm
    cases hgd : getEdgeData g u v0 with
    | none =>
      rw [relaxStep_cons_none hgd]
      exact Nat.le_succ_of_le (ih dm)
    | some w =>
      by_cases hle : d + w ≤ maxD
      · by_cases himp : improves dm v0 (d + w)
        · rw [relaxStep_cons_push hgd hle himp]
          simpa using Nat.succ_le_succ (ih (aset dm v0 (d + w)))
        · rw [relaxStep_cons_noimp hgd hle himp]
          exact Nat.le_succ_of_le (ih dm)
      · rw [relaxStep_cons_far hgd hle]
        exact Nat.le_succ_of_le (ih dm)

/-- Skipping a popped entry shrinks the loop measure. -/
theorem loopMeasure_skip_lt {g : RxGraph} {pq rest : List (ℚ × ℕ)}
    {visited : Finset ℕ} {c : ℚ} {u : ℕ} (hpop : pqPop pq = some ((c, u), rest)) :
    loopMeasure g rest visited < loopMeasure g pq visited := by
  have := pqPop_length hpop
  simp only [loopMeasure]
  omega

/-- Settling a popped entry shrinks the loop measure. -/
theorem loopMeasure_settle_lt {g : RxGraph} {maxD : ℚ} {pq rest : List (ℚ × ℕ)}
    {visited : Finset ℕ} {dist : DMap} {c : ℚ} {u : ℕ}
    (hpop : pqPop pq = some ((c, u), rest)) (hu : u ∉ visited) :
    loopMeasure g (rest ++ (relaxStep g maxD c u (successorIndices g u) dist).2)
      (insert u visited) < loopMeasure g pq visited := by
  have hlen := pqPop_length hpop
  have hsucc : (successorIndices g u).length ≤ g.edges.length := by
    simp only [successorIndices, List.length_map, List.length_reverse]
    exact List.length_filter_le _ _
  simp only [loopMeasure, List.length_append]
  by_cases hmem : u ∈ srcFinset g
  · have hcard : (srcFinset g \ insert u visited).card < (srcFinset g \ visited).card := by
      apply Finset.card_lt_card
      constructor
      · intro x hx
        rcases Finset.mem_sdiff.mp hx with ⟨hx1, hx2⟩
        exact Finset.mem_sdiff.mpr ⟨hx1, fun hcon => hx2 (Finset.mem_insert_of_mem hcon)⟩
      · intro hsub
        have hin : u ∈ srcFinset g \ insert u visited :=
          hsub (Finset.mem_sdiff.mpr ⟨hmem, hu⟩)
        exact (Finset.mem_sdiff.mp hin).2 (Finset.mem_insert_self _ _)
    have hmul : (srcFinset g \ insert u visited).card * (g.edges.length + 1) +
        (g.edges.length + 1) ≤ (srcFinset g \ visited).card * (g.edges.length + 1) := by
      have h3 : (srcFinset g \ insert u visited).card + 1 ≤
          (srcFinset g \ visited).card := hcard
      calc (srcFinset g \ insert u visited).card * (g.edges.length + 1) +
            (g.edges.length + 1)
          = ((srcFinset g \ insert u visited).card + 1) * (g.edges.length + 1) := by ring
        _ ≤ (srcFinset g \ visited).card * (g.edges.length + 1) :=
            Nat.mul_le_mul_right _ h3
    have h1 := @relaxStep_len g maxD c u (successorIndices g u) dist
    have h2 := le_trans h1 hsucc
    omega
  · have hnil : successorIndices g u = [] := by
      simp only [successorIndices]
      have hf : g.edges.filter (fun ed => ed.1 == u) = [] := by
        apply List.filter_eq_nil_iff.mpr
        intro ed hed
        simp only [beq_iff_eq]
        intro hcon
        apply hmem
        simp only [srcFinset, List.mem_toFinset, List.mem_map]
        exact ⟨ed, hed, hcon⟩
      rw [hf]
      simp
    have hcard : (srcFinset g \ insert u visited).card ≤ (srcFinset g \ visited).card := by
      apply Finset.card_le_card
      intro x hx
      rcases Finset.mem_sdiff.mp hx with ⟨hx1, hx2⟩
      exact Finset.mem_sdiff.mpr ⟨hx1, fun hcon => hx2 (Finset.mem_insert_of_mem hcon)⟩
    have hmul : (srcFinset g \ insert u visited).card * (g.edges.length + 1) ≤
        (srcFinset g \ visited).card * (g.edges.length + 1) :=
      Nat.mul_le_mul_right _ hcard
    rw [hnil]
    simp only [relaxStep, List.length_nil]
    omega

/-- When the queue is exhausted the recorded distances are exactly the
shortest distances within the bound. -/
theorem DijkInv.final {g : RxGraph} {s : ℕ} {maxD : ℚ} {pq : List (ℚ × ℕ)}
    {visited : Finset ℕ} {dist : DMap} (inv : DijkInv g s maxD pq visited dist)
    (hnn : g.Nonneg) (hpq : pq = []) :
    ∀ v c, afind dist v = some c ↔ IsMinDist g s v c ∧ c ≤ maxD := by
  subst hpq
  intro v c
  constructor
  · intro hv
    by_cases hvis : v ∈ visited
    · rcases inv.visited_min v hvis with ⟨c0, hc0, hmin0⟩
      rw [hv] at hc0
      obtain rfl : c = c0 := Option.some.inj hc0
      exact ⟨hmin0, (inv.dist_reach v c hv).2⟩
    · rcases inv.unvisited_dist v c hv hvis with ⟨e, he, _⟩
      simp at he
  · intro hc
    rcases hc with ⟨hmin, hle⟩
    by_cases hvis : v ∈ visited
    · rcases inv.visited_min v hvis with ⟨c0, hc0, hmin0⟩
      rw [IsMinDist.unique hmin hmin0]
      exact hc0
    · rcases inv.cover hnn hmin.1 hle hvis with ⟨e, he, _⟩
      simp at he

/-- Main loop induction: from any state satisfying the invariant, the loop
returns exactly the shortest distances within the bound. -/
theorem dijkstraLoop_correct {g : RxGraph} {s : ℕ} {maxD : ℚ} (hnn : g.Nonneg) :
    ∀ (n : ℕ) (pq : List (ℚ × ℕ)) (visited : Finset ℕ) (dist : DMap),
      loopMeasure g pq visited ≤ n → DijkInv g s maxD pq visited dist →
      ∀ v c, afind (dijkstraLoop g maxD pq visited dist) v = some c ↔
        IsMinDist g s v c ∧ c ≤ maxD := by
  intro n
  induction n with
  | zero =>
    intro pq visited dist hm inv
    cases hpop : pqPop pq with
    | none =>
      rw [dijkstraLoop_pop_none hpop]
      exact inv.final hnn ((pqPop_none_iff pq).mp hpop)
    | some e =>
      have hlen := @pqPop_length pq e.2 e.1 (by rw [hpop])
      simp only [loopMeasure] at hm
      omega
  | succ n ih =>
    intro pq visited dist hm inv
    cases hpop : pqPop pq with
    | none =>
      rw [dijkstraLoop_pop_none hpop]
      exact inv.final hnn ((pqPop_none_iff pq).mp hpop)
    | some e =>
      rcases e with ⟨⟨c, u⟩, rest⟩
      by_cases hv : u ∈ visited
      · rw [dijkstraLoop_skip hpop hv]
        refine ih rest visited dist ?_ (inv.skip hpop hv)
        have := @loopMeasure_skip_lt g pq rest visited _ _ hpop
        omega
      · have hcle : c ≤ maxD := (inv.pq_reach ((c, u)) (pqPop_mem hpop)).2
        rw [dijkstraLoop_settle hpop hv (not_lt.mpr hcle)]
        refine ih _ _ _ ?_ (inv.settle hnn hpop hv)
        have := @loopMeasure_settle_lt g maxD pq rest visited dist _ _ hpop hv
        omega

/-- The initial state of `bounded_dijkstra` satisfies the invariant when the
bound is nonnegative. -/
theorem dijkInv_init (g : RxGraph) (s : ℕ) (maxD : ℚ) (hD : 0 ≤ maxD) :
    DijkInv g s maxD [(0, s)] ∅ [(s, 0)] := by
  have hfind : ∀ v c, afind [((s : ℕ), (0 : ℚ))] v = some c → v = s ∧ c = 0 := by
    intro v c hv
    simp only [afind] at hv
    by_cases hs : s = v
    · rw [if_pos hs] at hv
      exact ⟨hs.symm, (Option.some.inj hv).symm⟩
    · rw [if_neg hs] at hv
      cases hv
  refine ⟨?_, ?_, ?_, ?_, ?_, ?_, ?_⟩
  · intro v c hv
    rcases hfind v c hv with ⟨rfl, rfl⟩
    exact ⟨Reaches.refl _, hD⟩
  · intro e he
    rcases List.mem_singleton.mp he with rfl
    exact ⟨Reaches.refl s, hD⟩
  · intro e he
    rcases List.mem_singleton.mp he with rfl
    refine ⟨0, ?_, le_refl 0⟩
    simp [afind]
  · intro v hv
    simp at hv
  · intro u0 hu0
    simp at hu0
  · exact Or.inr (List.mem_singleton.mpr rfl)
  · intro v c hv _
    rcases hfind v c hv with ⟨rfl, rfl⟩
    exact ⟨(0, v), List.mem_singleton.mpr rfl, rfl, le_refl 0⟩

/-- `bounded_dijkstra` computes exactly the shortest observed distances
within a nonnegative bound. -/
theorem bounded_dijkstra_correct (g : RxGraph) (s : ℕ) (maxD : ℚ)
    (hnn : g.Nonneg) (hD : 0 ≤ maxD) :
    ∀ v c, afind (bounded_dijkstra g s maxD) v = some c ↔
      IsMinDist g s v c ∧ c ≤ maxD :=
  dijkstraLoop_correct hnn (loopMeasure g [(0, s)] ∅) [(0, s)] ∅ [(s, 0)]
    (le_refl _) (dijkInv_init g s maxD hD)

/-- Once a node is recorded in the distance map it is never removed, and
its value never worsens, all the way to the loop's final result. -/
theorem dijkstraLoop_mono {g : RxGraph} {maxD : ℚ} :
    ∀ (n : ℕ) (pq : List (ℚ × ℕ)) (visited : Finset ℕ) (dist : DMap),
      loopMeasure g pq visited ≤ n →
      ∀ v c, afind dist v = some c →
        ∃ c', afind (dijkstraLoop g maxD pq visited dist) v = some c' ∧ c' ≤ c := by
  intro n
  induction n with
  | zero =>
    intro pq visited dist hm v c hv
    cases hpop : pqPop pq with
    | none =>
      rw [dijkstraLoop_pop_none hpop]
      exact ⟨c, hv, le_refl c⟩
    | some e =>
      have hlen := @pqPop_length pq e.2 e.1 (by rw [hpop])
      simp only [loopMeasure] at hm
      omega
  | succ n ih =>
    intro pq visited dist hm v c hv
    cases hpop : pqPop pq with
    | none =>
      rw [dijkstraLoop_pop_none hpop]
      exact ⟨c, hv, le_refl c⟩
    | some e =>
      rcases e with ⟨⟨c0, u⟩, rest⟩
      by_cases hvis : u ∈ visited
      · rw [dijkstraLoop_skip hpop hvis]
        refine ih rest visited dist ?_ v c hv
        have := @loopMeasure_skip_lt g pq rest visited _ _ hpop
        omega
      · by_cases hc0 : maxD < c0
        · rw [dijkstraLoop_break hpop hvis hc0]
          exact ⟨c, hv, le_refl c⟩
        · rw [dijkstraLoop_settle hpop hvis hc0]
          rcases relaxStep_mono (successorIndices g u) dist v c hv with ⟨c1, hc1, hc2⟩
          have hmlt := @loopMeasure_settle_lt g maxD pq rest visited dist _ _ hpop hvis
          rcases ih (rest ++ (relaxStep g maxD c0 u (successorIndices g u) dist).2)
              (insert u visited) (relaxStep g maxD c0 u (successorIndices g u) dist).1
              (by omega) v c1 hc1 with ⟨c2, hc3, hc4⟩
          exact ⟨c2, hc3, le_trans hc4 hc2⟩

/-- With enough fuel the structural twin agrees with the search loop. -/
theorem dijkstraLoopF_eq {g : RxGraph} {maxD : ℚ} :
    ∀ (fuel : ℕ) (pq : List (ℚ × ℕ)) (visited : Finset ℕ) (dist : DMap),
      loopMeasure g pq visited < fuel →
      dijkstraLoopF g maxD fuel pq visited dist = dijkstraLoop g maxD pq visited dist := by
  intro fuel
  induction fuel with
  | zero =>
    intro pq visited dist hm
    omega
  | succ fuel ih =>
    intro pq visited dist hm
    rw [dijkstraLoopF]
    cases hpop : pqPop pq with
    | none =>
      simp only [hpop]
      rw [dijkstraLoop_pop_none hpop]
    | some e =>
      rcases e with ⟨⟨c, u⟩, rest⟩
      simp only [hpop]
      by_cases hv : u ∈ visited
      · rw [if_pos hv, dijkstraLoop_skip hpop hv]
        refine ih rest visited dist ?_
        have := @loopMeasure_skip_lt g pq rest visited _ _ hpop
        omega
      · rw [if_neg hv]
        by_cases hc : maxD < c
        · rw [if_pos hc, dijkstraLoop_break hpop hv hc]
        · rw [if_neg hc, dijkstraLoop_settle hpop hv hc]
          refine ih _ _ _ ?_
          have := @loopMeasure_settle_lt g maxD pq rest visited dist _ _ hpop hv
          omega

/-- Concrete run: the unit edge graph searched from node 0 with bound 10. -/
theorem bdEval1 : bounded_dijkstra ⟨2, [(0, 1, 1)]⟩ 0 10 = [(0, 0), (1, 1)] := by
  rw [bounded_dijkstra, ← @dijkstraLoopF_eq ⟨2, [(0, 1, 1)]⟩ 10 50 [(0, 0)] ∅ [(0, 0)]
    (by decide)]
  norm_num [dijkstraLoopF, pqPop, pqMinEntry, entLe, relaxStep, successorIndices,
    getEdgeData, improves, afind, aset, List.erase, List.filter, -Prod.mk_one_one,
    -Prod.mk_zero_zero]

/-- Concrete run: the unit edge graph searched from node 0 with bound 5. -/
theorem bdEval2 : bounded_dijkstra ⟨2, [(0, 1, 1)]⟩ 0 5 = [(0, 0), (1, 1)] := by
  rw [bounded_dijkstra, ← @dijkstraLoopF_eq ⟨2, [(0, 1, 1)]⟩ 5 50 [(0, 0)] ∅ [(0, 0)]
    (by decide)]
  norm_num [dijkstraLoopF, pqPop, pqMinEntry, entLe, relaxStep, successorIndices,
    getEdgeData, improves, afind, aset, List.erase, List.filter, -Prod.mk_one_one,
    -Prod.mk_zero_zero]

/-- Concrete run on the parallel-edge graph: the search observes only the
most recently inserted parallel edge, weight 5. -/
theorem bdEval3 : bounded_dijkstra ⟨2, [(0, 1, 1), (0, 1, 5)]⟩ 0 10 = [(0, 0), (1, 5)] := by
  rw [bounded_dijkstra, ← @dijkstraLoopF_eq ⟨2, [(0, 1, 1), (0, 1, 5)]⟩ 10 50 [(0, 0)] ∅
    [(0, 0)] (by decide)]
  norm_num [dijkstraLoopF, pqPop, pqMinEntry, entLe, relaxStep, successorIndices,
    getEdgeData, improves, afind, aset, List.erase, List.filter, -Prod.mk_one_one,
    -Prod.mk_zero_zero]

/-- Concrete run with a negative bound: the source is still returned. -/
theorem bdEvalNeg1 : bounded_dijkstra ⟨1, []⟩ 0 (-1) = [(0, 0)] := by
  rw [bounded_dijkstra, ← @dijkstraLoopF_eq ⟨1, []⟩ (-1) 50 [(0, 0)] ∅ [(0, 0)]
    (by decide)]
  norm_num [dijkstraLoopF, pqPop, pqMinEntry, entLe, relaxStep, successorIndices,
    getEdgeData, improves, afind, aset, List.erase, List.filter, -Prod.mk_one_one,
    -Prod.mk_zero_zero]

/-- Concrete run with a negative bound from source 1 in an edgeless graph. -/
theorem bdEvalNeg2 : bounded_dijkstra ⟨2, []⟩ 1 (-3) = [(1, 0)] := by
  rw [bounded_dijkstra, ← @dijkstraLoopF_eq ⟨2, []⟩ (-3) 50 [(0, 1)] ∅ [(1, 0)]
    (by decide)]
  norm_num [dijkstraLoopF, pqPop, pqMinEntry, entLe, relaxStep, successorIndices,
    getEdgeData, improves, afind, aset, List.erase, List.filter, -Prod.mk_one_one,
    -Prod.mk_zero_zero]

/-- Concrete run on a single isolated node with a positive bound. -/
theorem bdEval5 : bounded_dijkstra ⟨1, []⟩ 0 7 = [(0, 0)] := by
  rw [bounded_dijkstra, ← @dijkstraLoopF_eq ⟨1, []⟩ 7 50 [(0, 0)] ∅ [(0, 0)]
    (by decide)]
  norm_num [dijkstraLoopF, pqPop, pqMinEntry, entLe, relaxStep, successorIndices,
    getEdgeData, improves, afind, aset, List.erase, List.filter, -Prod.mk_one_one,
    -Prod.mk_zero_zero]

/-- In an edgeless graph the only walks are the trivial ones of cost 0. -/
theorem isMinDist_edgeless (n : ℕ) (u : ℕ) : IsMinDist ⟨n, []⟩ u u 0 := by
  refine ⟨Reaches.refl u, ?_⟩
  intro c' hc'
  exact Reaches.nonneg (by intro e he; simp at he) hc'

/-- C1: the claim says the serial engine emits, for each reachable target,
the SMALLEST threshold that fits the distance (thresholds examined
ascending).  The serial code sorts the thresholds with `reverse=True` and
breaks at the first fit, so on the unit-edge graph (distance 1) with
thresholds `[5, 10]` it emits the record `(1, 2, 10)` although the smallest
fitting threshold is 5 — contradicting its own inline comment "Use the
smallest trip time threshold" and the docstring "returns the minimum trip
time for each land". -/
theorem C1_serial_emits_largest_threshold :
    calculate_walk_times [1] CG1 [2] [(5 : ℚ), 10] 1 = Except.ok [(1, 2, 10)] ∧
      firstFit (sortAsc [(5 : ℚ), 10]) 1 = some 5 := by
  constructor
  · norm_num [calculate_walk_times, calculate_walk_times_serial, CG1, nx_to_rustworkx,
      get_node_mapping, buildConservedMap, convert_node_ids_to_rx_indices, afind, aset,
      sortDesc, sortAsc, List.insertionSort, List.orderedInsert, maxOf, get_lands,
      firstFit, List.find?, List.enum, List.enumFrom, bdEval1, -Prod.mk_one_one,
      -Prod.mk_zero_zero]
    decide
  · decide

/-- C2: the claim says the parallel dispatcher and the serial engine return
the same record set for worker counts 1, 2 and 4.  On the unit-edge graph
with thresholds `[5, 10]` every parallel worker count yields
`{(1, 2, 5)}` (thresholds sorted ascending) while the serial engine yields
`{(1, 2, 10)}` (thresholds sorted descending), so the two record sets
differ. -/
theorem C2_parallel_serial_disagree :
    calculate_walk_times_parallel [1] CG1 [2] [(5 : ℚ), 10] 1 = Except.ok [(1, 2, 5)] ∧
      calculate_walk_times_parallel [1] CG1 [2] [(5 : ℚ), 10] 2 = Except.ok [(1, 2, 5)] ∧
      calculate_walk_times_parallel [1] CG1 [2] [(5 : ℚ), 10] 4 = Except.ok [(1, 2, 5)] ∧
      calculate_walk_times [1] CG1 [2] [(5 : ℚ), 10] 1 = Except.ok [(1, 2, 10)] := by
  have hpar : calculate_walk_times_parallel_core [1] CG1 [2] [(5 : ℚ), 10] =
      [(1, 2, 5)] := by
    norm_num [calculate_walk_times_parallel_core, process_single_center_node, CG1,
      nx_to_rustworkx, get_node_mapping, buildConservedMap,
      convert_node_ids_to_rx_indices, afind, aset, sortDesc, sortAsc,
      List.insertionSort, List.orderedInsert, maxOf, firstFit, List.find?, List.enum,
      List.enumFrom, bdEval1, -Prod.mk_one_one, -Prod.mk_zero_zero]
    decide
  refine ⟨?_, ?_, ?_, ?_⟩
  · rw [calculate_walk_times_parallel, if_neg (by decide), hpar]
  · rw [calculate_walk_times_parallel, if_neg (by decide), hpar]
  · rw [calculate_walk_times_parallel, if_neg (by decide), hpar]
  · norm_num [calculate_walk_times, calculate_walk_times_serial, CG1, nx_to_rustworkx,
      get_node_mapping, buildConservedMap, convert_node_ids_to_rx_indices, afind, aset,
      sortDesc, sortAsc, List.insertionSort, List.orderedInsert, maxOf, get_lands,
      firstFit, List.find?, List.enum, List.enumFrom, bdEval1, -Prod.mk_one_one,
      -Prod.mk_zero_zero]
    decide

/-- C3, counterexample: as stated the claim quantifies over every bound,
but with `max_distance = -1` on a one-node graph the returned map contains
the source with distance 0 even though the restriction of an unbounded
search to nodes with true distance at most -1 is empty. -/
theorem C3_negative_bound_counterexample :
    afind (bounded_dijkstra ⟨1, []⟩ 0 (-1)) 0 = some 0 ∧
      IsMinDist ⟨1, []⟩ 0 0 0 ∧ ¬ ((0 : ℚ) ≤ -1) := by
  refine ⟨?_, isMinDist_edgeless 1 0, by norm_num⟩
  rw [bdEvalNeg1]
  decide

/-- C3, amended: for a nonnegative bound, `bounded_dijkstra` returns
exactly the nodes whose shortest distance (over the weights the algorithm
observes through `get_edge_data`) is within the bound, each with its exact
shortest distance — which is precisely the restriction of an unbounded
Dijkstra on the same graph. -/
theorem C3_bounded_search_exact (g : RxGraph) (s : ℕ) (maxD : ℚ) (hwf : g.WF)
    (hs : s < g.numNodes) (hnn : g.Nonneg) (hD : 0 ≤ maxD) (v : ℕ) (c : ℚ) :
    afind (bounded_dijkstra g s maxD) v = some c ↔ IsMinDist g s v c ∧ c ≤ maxD :=
  bounded_dijkstra_correct g s maxD hnn hD v c

/-- C3, witness: the amended theorem applied to the unit-edge graph. -/
theorem C3_witness :
    (afind (bounded_dijkstra ⟨2, [(0, 1, 1)]⟩ 0 5) 1 = some 1 ↔
      IsMinDist ⟨2, [(0, 1, 1)]⟩ 0 1 1 ∧ (1 : ℚ) ≤ 5) :=
  C3_bounded_search_exact ⟨2, [(0, 1, 1)]⟩ 0 5 (by unfold RxGraph.WF; decide)
    (by decide) (by unfold RxGraph.Nonneg; decide) (by decide) 1 1

/-- C4: the claim says the indexer preserves parallel edges (it does: both
edges survive conversion) and that the search treats every parallel edge as
a candidate relaxation, so the computed distance uses the minimum-weight
parallel edge.  In fact `get_edge_data` returns a single representative
edge (the most recently inserted), so with parallel edges of weights 1 and
5 the search records distance 5 although a multigraph walk of cost 1
exists. -/
theorem C4_parallel_edges_collapsed :
    (nx_to_rustworkx CG2 1).1.edges = [(0, 1, 1), (0, 1, 5)] ∧
      afind (bounded_dijkstra (nx_to_rustworkx CG2 1).1 0 10) 1 = some 5 ∧
      MultiReaches (nx_to_rustworkx CG2 1).1 0 1 1 ∧ ((5 : ℚ) ≠ 1) := by
  have hconv : (nx_to_rustworkx CG2 1).1 = ⟨2, [(0, 1, 1), (0, 1, 5)]⟩ := by decide
  refine ⟨by decide, ?_, ?_, by norm_num⟩
  · rw [hconv, bdEval3]
    decide
  · rw [hconv]
    have hmem : ((0 : ℕ), (1 : ℕ), (1 : ℚ)) ∈ (RxGraph.mk 2 [(0, 1, 1), (0, 1, 5)]).edges := by
      simp
    have hstep := MultiReaches.step (MultiReaches.refl 0) hmem
    simpa using hstep

/-- C5, counterexample: as stated the insertion invariant covers every
bound, but with `max_distance = -3` the source (true shortest distance 0)
is inserted into the result map although 0 exceeds the bound. -/
theorem C5_negative_bound_counterexample :
    afind (bounded_dijkstra ⟨2, []⟩ 1 (-3)) 1 = some 0 ∧
      IsMinDist ⟨2, []⟩ 1 1 0 ∧ ¬ ((0 : ℚ) ≤ -3) := by
  refine ⟨?_, isMinDist_edgeless 2 1, by norm_num⟩
  rw [bdEvalNeg2]
  decide

/-- C5, amended: for a nonnegative bound every node of the result map has
its true observed shortest distance within the bound (and entries are never
removed, so this covers every insertion during the run), and popping an
unvisited queue entry whose distance exceeds the bound terminates the whole
loop at once, returning the distances accumulated so far. -/
theorem C5_insertion_invariant_and_break (g : RxGraph) (s : ℕ) (maxD : ℚ)
    (hnn : g.Nonneg) (hD : 0 ≤ maxD) :
    (∀ v c, afind (bounded_dijkstra g s maxD) v = some c →
        ∃ cm, IsMinDist g s v cm ∧ cm ≤ maxD) ∧
      (∀ (pq rest : List (ℚ × ℕ)) (visited : Finset ℕ) (dist : DMap) (c : ℚ) (u : ℕ),
        pqPop pq = some ((c, u), rest) → u ∉ visited → maxD < c →
          dijkstraLoop g maxD pq visited dist = dist) ∧
      (∀ (pq : List (ℚ × ℕ)) (visited : Finset ℕ) (dist : DMap) (v : ℕ) (c : ℚ),
        afind dist v = some c →
          ∃ c', afind (dijkstraLoop g maxD pq visited dist) v = some c' ∧ c' ≤ c) := by
  refine ⟨?_, ?_, ?_⟩
  · intro v c hv
    rcases (bounded_dijkstra_correct g s maxD hnn hD v c).mp hv with ⟨hmin, hle⟩
    exact ⟨c, hmin, hle⟩
  · intro pq rest visited dist c u hpop hu hc
    exact dijkstraLoop_break hpop hu hc
  · intro pq visited dist v c hv
    exact dijkstraLoop_mono (loopMeasure g pq visited) pq visited dist (le_refl _) v c hv

/-- C5, witness: the amended theorem applied to a one-node graph. -/
theorem C5_witness : ∃ cm, IsMinDist ⟨1, []⟩ 0 0 cm ∧ cm ≤ 7 :=
  (C5_insertion_invariant_and_break ⟨1, []⟩ 0 7 (by unfold RxGraph.Nonneg; decide)
    (by decide)).1 0 0 (by rw [bdEval5]; decide)

/-- C6: the claim says ids absent from the graph are skipped, producing no
records, while valid ids keep their records.  In the code
`convert_node_ids_to_rx_indices` OMITS missing target ids instead of
returning `None`, so the `zip` in the conserved-land dict comprehension
misaligns: with targets `[5, 2]` where 5 is absent, the run emits the
record `(1, 5, 5)` — a record for the ABSENT id 5 carrying the distance of
node 2 — and loses the record for the present id 2.  The dead
`if rx_idx is not None` guard shows the skipping behaviour was intended. -/
theorem C6_absent_target_misaligned :
    calculate_walk_times [1] CG1 [5, 2] [(5 : ℚ)] 1 = Except.ok [(1, 5, 5)] ∧
      afind (nx_to_rustworkx CG1 1).2.1 5 = none ∧
      afind (nx_to_rustworkx CG1 1).2.1 2 = some 1 := by
  refine ⟨?_, by decide, by decide⟩
  norm_num [calculate_walk_times, calculate_walk_times_serial, CG1, nx_to_rustworkx,
    get_node_mapping, buildConservedMap, convert_node_ids_to_rx_indices, afind, aset,
    sortDesc, sortAsc, List.insertionSort, List.orderedInsert, maxOf, get_lands,
    firstFit, List.find?, List.enum, List.enumFrom, bdEval2, -Prod.mk_one_one,
    -Prod.mk_zero_zero]
  decide

/-- C7, counterexample: with 4 execution units and a single origin the
default worker count is 3, strictly more workers than work items, so the
claimed upper bound by the number of origins does not exist. -/
theorem C7_counterexample :
    default_n_jobs 4 = 3 ∧ ([1] : List ℕ).length < default_n_jobs 4 := by
  constructor <;> decide

/-- C7, amended: the default worker count is exactly
`max(1, cpu_count() - 1)`; it is not bounded by the number of origins, and
whenever the unit count exceeds the origin count by at least two, strictly
more workers than work items are spawned. -/
theorem C7_default_workers (cpuCount : ℕ) (origins : List ℕ)
    (h : origins.length + 2 ≤ cpuCount) :
    default_n_jobs cpuCount = cpuCount - 1 ∧
      origins.length < default_n_jobs cpuCount := by
  unfold default_n_jobs
  omega

/-- C7, witness: four execution units and one origin. -/
theorem C7_witness :
    default_n_jobs 4 = 4 - 1 ∧ ([1] : List ℕ).length < default_n_jobs 4 :=
  C7_default_workers 4 [1] (by decide)

/-- C8, counterexample: a graph with one node and zero edges is not an
empty graph in the claim's sense (zero nodes) and the threshold list is
nonempty, yet the pipeline raises the configuration error: the first graph
access `next(iter(graph.edges(...)))` fails on any EDGELESS graph. -/
theorem C8_edgeless_graph_counterexample :
    calculate_walk_times [7] CG4 [] [(5 : ℚ)] 1 = Except.error CalcError.noEdges ∧
      CG4.nodes ≠ [] := by
  constructor <;> decide

/-- C8, amended: a serial run fails before any search exactly when the
graph has no edges (including, but not only, the zero-node case) or the
threshold list is empty; these are the only fatal configuration conditions
of the serial pipeline. -/
theorem C8_fatal_conditions (centers : List ℕ) (g : NxGraph) (landIds : List ℕ)
    (tts : List ℚ) :
    (∃ err, calculate_walk_times centers g landIds tts 1 = Except.error err) ↔
      (g.edges = [] ∨ tts = []) := by
  unfold calculate_walk_times
  by_cases hg : g.edges = []
  · simp [hg]
  · by_cases ht : tts = []
    · simp [hg, ht]
    · simp [hg, ht]

/-- C9: the serial engine is deterministic — two serial runs on identical
inputs return the same result, there being no other input the pure record
computation depends on. -/
theorem C9_serial_deterministic (centers : List ℕ) (g : NxGraph) (landIds : List ℕ)
    (tts : List ℚ) (r1 r2 : Except CalcError (List Rec))
    (h1 : r1 = calculate_walk_times centers g landIds tts 1)
    (h2 : r2 = calculate_walk_times centers g landIds tts 1) : r1 = r2 := by
  rw [h1, h2]

/-- C9, witness: two runs on the unit-edge graph. -/
theorem C9_witness :
    calculate_walk_times [1] CG1 [2] [(5 : ℚ)] 1 =
      calculate_walk_times [1] CG1 [2] [(5 : ℚ)] 1 :=
  C9_serial_deterministic [1] CG1 [2] [(5 : ℚ)] _ _ rfl rfl

/-- C10: `bounded_dijkstra` always records the source at distance 0 — with
nonnegative weights the initial entry `{source: 0.0}` is never improved —
and for a negative bound the very first pop exceeds the bound, so the
result is exactly the singleton `{source: 0.0}` even though the source's
distance then exceeds the bound. -/
theorem C10_source_always_recorded (g : RxGraph) (s : ℕ) (maxD : ℚ)
    (hnn : g.Nonneg) :
    afind (bounded_dijkstra g s maxD) s = some 0 ∧
      (maxD < 0 → bounded_dijkstra g s maxD = [(s, 0)]) := by
  have hpop : pqPop [((0 : ℚ), s)] = some ((0, s), []) := by
    simp [pqPop, pqMinEntry, List.erase_cons_head]
  have hneg : maxD < 0 → bounded_dijkstra g s maxD = [(s, 0)] := by
    intro h
    rw [bounded_dijkstra]
    exact dijkstraLoop_break hpop (by simp) h
  refine ⟨?_, hneg⟩
  by_cases hD : maxD < 0
  · rw [hneg hD]
    simp [afind]
  · have hmin : IsMinDist g s s 0 :=
      ⟨Reaches.refl s, fun c' hc' => Reaches.nonneg hnn hc'⟩
    exact (bounded_dijkstra_correct g s maxD hnn (not_lt.mp hD) s 0).mpr
      ⟨hmin, not_lt.mp hD⟩

/-- C10, witness: a one-node graph with a negative bound. -/
theorem C10_witness :
    afind (bounded_dijkstra ⟨1, []⟩ 0 (-1)) 0 = some 0 ∧
      ((-1 : ℚ) < 0 → bounded_dijkstra ⟨1, []⟩ 0 (-1) = [(0, 0)]) :=
  C10_source_always_recorded ⟨1, []⟩ 0 (-1) (by unfold RxGraph.Nonneg; decide)
